import Mathlib

/-!
# Verification of Botan's elliptic-curve scalar-multiplication engines

Shallow embedding of `src/lib/pubkey/ec_group/point_mul.cpp` and
`src/lib/pubkey/ec_group/point_gfp.h` (Botan's GF(p) point-multiplication
core).

The scalar pipeline (reduction, blinding, padding, windowing) is embedded
over `Nat`, translated line by line from `point_mul.cpp`.  The three
precomputation engines are embedded over an arbitrary additive commutative
group: the point-arithmetic routines themselves (`point_gfp.cpp`) are not
among the sources, and the specification asserts that point addition on
represented affine points is a commutative group operation (identity,
inverses, commutativity, associativity), so the engines' algorithms are
stated over such a group.  Coordinate-level facts (negation, the cross-curve
guard of `PointGFp::add`, Jacobian representation randomization) are embedded
concretely.
-/

namespace PointMul

/-! ## BigInt scalar primitives

`BigInt` is an external collaborator (sign-magnitude arbitrary-precision
integer).  Nonnegative values are embedded as `Nat`; the operations used by
`point_mul.cpp` are embedded below.
-/

/-- Fuel-driven recursion for `bits`; the fuel is an upper bound on the
argument, so `bitsAux n n` counts the significant bits of `n`. -/
def bitsAux : Nat → Nat → Nat
  | 0, _ => 0
  | fuel + 1, n => if n = 0 then 0 else bitsAux fuel (n / 2) + 1

/-- `BigInt::bits()`: the number of significant bits of a nonnegative value,
with `bits 0 = 0`. -/
def bits (n : Nat) : Nat := bitsAux n n

/-- `round_up(n, align_to)` from `rounding.h`: round `n` up to a multiple of
`align_to` (callers in `point_mul.cpp` pass 2, 3 or 4, never 0). -/
def round_up (n align : Nat) : Nat :=
  if n % align = 0 then n else n + (align - n % align)

/-- `BigInt::get_substring(offset, length)`: the bits of the magnitude in
positions `[offset, offset+length)`, as a machine word. -/
def get_substring (n offset length : Nat) : Nat := (n >>> offset) % 2 ^ length

/-- `blinding_size(group_order)` from `point_mul.cpp` line 17: half the
group-order bit length, rounded up. -/
def blinding_size (group_order : Nat) : Nat := (bits group_order + 1) / 2

/-- Modelled from the spec: the externally supplied `Modular_Reducer`
(`reducer.h` is not among the sources) reduces the scalar modulo its
modulus ("Reduce `scalar` modulo `group_order` using the externally supplied
reducer"). -/
def reduce (k modulus : Nat) : Nat := k % modulus

/-- Modelled from the spec: `BigInt(rng, bits)` (`bigint.h` is not among the
sources) draws a random value of exactly the requested bit length — "`mask`
is a random value of bit-length ≈ half the group order's bit-length" — so the
top bit is set and the remaining `bs - 1` bits come from the RNG stream `r`. -/
def rng_mask (bs r : Nat) : Nat :=
  if bs = 0 then 0 else 2 ^ (bs - 1) + r % 2 ^ (bs - 1)

/-- The unseeded padding of `PointGFp_Base_Point_Precompute::mul` (lines
105-117): add one copy of the group order, and a second copy if the bit
length did not grow. -/
def unseeded_pad (red group_order : Nat) : Nat :=
  if bits (red + group_order) = bits group_order
  then red + group_order + group_order
  else red + group_order

/-- The scalar actually processed by the window loop of
`PointGFp_Base_Point_Precompute::mul` (lines 97-117): reduce by the engine's
`m_mod_order`, then blind with `mask * group_order` when the RNG is seeded,
else pad with one or two copies of `group_order`. -/
def blinded_scalar (seeded : Bool) (mask k mod_order group_order : Nat) : Nat :=
  if seeded then reduce k mod_order + group_order * mask
  else unseeded_pad (reduce k mod_order) group_order

/-- `windows` at line 119: number of 3-bit windows covering the blinded
scalar (`WINDOW_BITS = 3`). -/
def base_windows (scalar : Nat) : Nat := round_up (bits scalar) 3 / 3

/-- `T_bits` of the fixed-base constructor (line 48): number of 3-bit windows
covering `p_bits + blinding_size(mod_order) + 1` bits. -/
def base_T_bits (p_bits mod_order : Nat) : Nat :=
  round_up (p_bits + blinding_size mod_order + 1) 3 / 3

/-- Length of the fixed-base word table `m_W` (line 76):
`WINDOW_SIZE * T_bits` points, two coordinates of `p_words` words each. -/
def base_W_len (p_bits mod_order p_words : Nat) : Nat :=
  7 * base_T_bits p_bits mod_order * (2 * p_words)

/-! ### Bit-length characterization -/

theorem bitsAux_le {fuel n m : Nat} (h : n ≤ fuel) :
    bitsAux fuel n ≤ m ↔ n < 2 ^ m := by
  induction fuel generalizing n m with
  | zero =>
    have hn : n = 0 := Nat.le_zero.mp h
    subst hn
    simp [bitsAux, Nat.pos_pow_of_pos]
  | succ fuel ih =>
    by_cases hn : n = 0
    · subst hn
      simp [bitsAux, Nat.pos_pow_of_pos]
    · rw [bitsAux, if_neg hn]
      cases m with
      | zero =>
        simp only [Nat.pow_zero, Nat.lt_one_iff]
        omega
      | succ m =>
        have hle : n / 2 ≤ fuel := by omega
        rw [Nat.succ_le_succ_iff, ih hle, pow_succ,
          Nat.div_lt_iff_lt_mul (by norm_num : 0 < 2)]

theorem bits_le {n m : Nat} : bits n ≤ m ↔ n < 2 ^ m := bitsAux_le le_rfl

theorem lt_two_pow_bits (n : Nat) : n < 2 ^ bits n := bits_le.mp le_rfl

theorem lt_bits {m n : Nat} : m < bits n ↔ 2 ^ m ≤ n := by
  rw [← Nat.not_le, bits_le, Nat.not_lt]

theorem bits_pos {n : Nat} (h : 0 < n) : 0 < bits n :=
  lt_bits.mpr (by simpa using h)

theorem two_pow_pred_le_self {n : Nat} (h : 0 < n) : 2 ^ (bits n - 1) ≤ n := by
  have hb := bits_pos h
  exact lt_bits.mp (by omega)

/-! ### Rounding and windowing arithmetic -/

theorem round_up_two_div (n : Nat) : round_up n 2 / 2 = (n + 1) / 2 := by
  unfold round_up; split <;> omega

theorem round_up_three_div (n : Nat) : round_up n 3 / 3 = (n + 2) / 3 := by
  unfold round_up; split <;> omega

theorem round_up_four_div (n : Nat) : round_up n 4 / 4 = (n + 3) / 4 := by
  unfold round_up; split <;> omega

theorem base_windows_eq (s : Nat) : base_windows s = (bits s + 2) / 3 := by
  rw [base_windows, round_up_three_div]

theorem base_T_bits_eq (p_bits mod_order : Nat) :
    base_T_bits p_bits mod_order = (p_bits + blinding_size mod_order + 1 + 2) / 3 := by
  rw [base_T_bits, round_up_three_div]

theorem lt_eight_pow_base_windows (s : Nat) : s < 8 ^ base_windows s := by
  have h1 : bits s ≤ 3 * base_windows s := by rw [base_windows_eq]; omega
  calc s < 2 ^ bits s := lt_two_pow_bits s
    _ ≤ 2 ^ (3 * base_windows s) := Nat.pow_le_pow_right (by norm_num) h1
    _ = 8 ^ base_windows s := by rw [pow_mul]; norm_num

/-! ### Blinding and padding bounds -/

/-- The mask drawn by the fixed-base seeded path has the exact bit length
requested (the top bit is set). -/
theorem bits_rng_mask {bs : Nat} (hbs : 0 < bs) (r : Nat) :
    bits (rng_mask bs r) = bs := by
  rw [rng_mask, if_neg (by omega)]
  have hr : r % 2 ^ (bs - 1) < 2 ^ (bs - 1) := Nat.mod_lt _ (Nat.pos_pow_of_pos _ (by norm_num))
  have hpow : 2 ^ (bs - 1) + 2 ^ (bs - 1) = 2 ^ bs := by
    rw [← Nat.two_mul, ← pow_succ']
    congr 1
    omega
  have hup : bits (2 ^ (bs - 1) + r % 2 ^ (bs - 1)) ≤ bs := bits_le.mpr (by omega)
  have hlo : bs - 1 < bits (2 ^ (bs - 1) + r % 2 ^ (bs - 1)) := lt_bits.mpr (by omega)
  omega

theorem blinding_size_pos {group_order : Nat} (h : 0 < group_order) :
    0 < blinding_size group_order := by
  have := bits_pos h
  rw [blinding_size]
  omega

/-- Core of claim C4: the unseeded padding always produces a scalar of bit
length exactly `bits group_order + 1`. -/
theorem bits_unseeded_pad {r go : Nat} (hgo : 0 < go) (hr : r < go) :
    bits (unseeded_pad r go) = bits go + 1 := by
  have hB := bits_pos hgo
  have h1 : go < 2 ^ bits go := lt_two_pow_bits go
  have h2 : 2 ^ (bits go - 1) ≤ go := two_pow_pred_le_self hgo
  have hpow : 2 ^ (bits go - 1) + 2 ^ (bits go - 1) = 2 ^ bits go := by
    rw [← Nat.two_mul, ← pow_succ']
    congr 1
    omega
  have hpow1 : 2 ^ (bits go + 1) = 2 ^ bits go + 2 ^ bits go := by
    rw [pow_succ]
    omega
  rw [unseeded_pad]
  split
  · next h =>
    have hub : r + go < 2 ^ bits go := bits_le.mp h.le
    have hup : bits (r + go + go) ≤ bits go + 1 := bits_le.mpr (by omega)
    have hlo : bits go < bits (r + go + go) := lt_bits.mpr (by omega)
    omega
  · next h =>
    have hup : bits (r + go) ≤ bits go + 1 := bits_le.mpr (by omega)
    have hlo : bits go - 1 < bits (r + go) := lt_bits.mpr (by omega)
    omega

/-- Bit-length bound for the seeded (Coron-blinded) scalar. -/
theorem bits_seeded_le {r go mask bs : Nat} (hr : r < go)
    (hm : mask < 2 ^ bs) : bits (r + go * mask) ≤ bits go + bs := by
  apply bits_le.mpr
  have h1 : go < 2 ^ bits go := lt_two_pow_bits go
  have h2 : go * mask ≤ go * (2 ^ bs - 1) := Nat.mul_le_mul_left go (by omega)
  have h3 : go * (2 ^ bs - 1) + go = go * 2 ^ bs := by
    have : 0 < 2 ^ bs := Nat.pos_pow_of_pos _ (by norm_num)
    rw [Nat.mul_sub, Nat.mul_one, Nat.sub_add_cancel (Nat.le_mul_of_pos_right go this)]
  have h4 : go * 2 ^ bs ≤ 2 ^ bits go * 2 ^ bs := Nat.mul_le_mul_right _ h1.le
  rw [pow_add]
  omega

/-- The window count derived from the blinded scalar never exceeds the
`T_bits` windows the fixed-base constructor precomputed (shared between the
refinement and bounds claims).  The hypothesis `bits go ≤ p_bits + 1`
embodies the constructor's comment that a group order is at most one bit
longer than the curve prime. -/
theorem base_windows_le_T_bits {go p_bits mask : Nat} (seeded : Bool) (k : Nat)
    (hgo : 0 < go) (hb : bits go ≤ p_bits + 1)
    (hm : mask < 2 ^ blinding_size go) :
    base_windows (blinded_scalar seeded mask k go go) ≤ base_T_bits p_bits go := by
  have hbs := blinding_size_pos hgo
  have hred : k % go < go := Nat.mod_lt _ hgo
  have hscal : bits (blinded_scalar seeded mask k go go)
      ≤ p_bits + blinding_size go + 1 := by
    rw [blinded_scalar]
    simp only [reduce]
    split
    · have := bits_seeded_le hred hm
      omega
    · have := bits_unseeded_pad hgo hred
      omega
  rw [base_windows_eq, base_T_bits_eq]
  exact Nat.div_le_div_right (by omega)

/-! ### Base-8/16/4 digit arithmetic for the window loops -/

theorem mod_pow_succ {c : Nat} (hc : 0 < c) (n s : Nat) :
    s % c ^ (n + 1) = c ^ n * (s / c ^ n % c) + s % c ^ n := by
  have hcn : 0 < c ^ n := Nat.pos_pow_of_pos _ hc
  have hr : s % c ^ n < c ^ n := Nat.mod_lt _ hcn
  have hs : s = c ^ n * (s / c ^ n) + s % c ^ n := (Nat.div_add_mod s (c ^ n)).symm
  have hq : s / c ^ n = c * (s / c ^ n / c) + s / c ^ n % c :=
    (Nat.div_add_mod (s / c ^ n) c).symm
  have hqc : s / c ^ n % c < c := Nat.mod_lt _ hc
  calc s % c ^ (n + 1)
      = (c ^ (n + 1) * (s / c ^ n / c) + (c ^ n * (s / c ^ n % c) + s % c ^ n))
          % c ^ (n + 1) := by
        conv_lhs => rw [hs]
        rw [pow_succ]
        congr 1
        conv_lhs => rw [hq]
        ring
    _ = (c ^ n * (s / c ^ n % c) + s % c ^ n) % c ^ (n + 1) := by
        rw [Nat.add_comm (c ^ (n + 1) * _), Nat.add_mul_mod_self_left]
    _ = c ^ n * (s / c ^ n % c) + s % c ^ n := by
        apply Nat.mod_eq_of_lt
        have h1 : c ^ n * (s / c ^ n % c) ≤ c ^ n * (c - 1) :=
          Nat.mul_le_mul_left _ (by omega)
        have h2 : c ^ n * (c - 1) + c ^ n = c ^ n * c := by
          rw [Nat.mul_sub, Nat.mul_one, Nat.sub_add_cancel (Nat.le_mul_of_pos_right _ hc)]
        rw [pow_succ]
        omega

theorem get_substring_base3 (s n : Nat) :
    get_substring s (3 * n) 3 = s / 8 ^ n % 8 := by
  rw [get_substring, Nat.shiftRight_eq_div_pow, pow_mul]
  norm_num

theorem get_substring_base4 (s n : Nat) :
    get_substring s (4 * n) 4 = s / 16 ^ n % 16 := by
  rw [get_substring, Nat.shiftRight_eq_div_pow, pow_mul]
  norm_num

theorem get_substring_base2 (s n : Nat) :
    get_substring s (2 * n) 2 = s / 4 ^ n % 4 := by
  rw [get_substring, Nat.shiftRight_eq_div_pow, pow_mul]
  norm_num

theorem get_substring_lt (s offset length : Nat) :
    get_substring s offset length < 2 ^ length :=
  Nat.mod_lt _ (Nat.pos_pow_of_pos _ (by norm_num))

/-! ## The three engines over the point group

The specification (§4.1, §8) gives the point operations used by the engines
the structure of an additive commutative group on represented affine points
(`point_gfp.cpp` is not among the sources): `zero()` is the identity,
`add`/`add_affine`/`plus` are the group addition (with the all-zero encoded
operand standing for the identity), `mult2`/`mult2i i`/`double_of` are
doubling (`2 ^ i`-fold), and `negate` is the group inverse.
`randomize_repr` and `force_all_affine` change only the coordinate
representation, never the represented point, so they vanish at this level
(the representation level is treated separately below).  The engines below
are therefore stated over an arbitrary `AddCommGroup`.
-/

/-- `Invalid_Argument` raised by `BOTAN_ARG_CHECK` / explicit `throw`. -/
inductive BotanErr where
  | invalidArgument
  deriving DecidableEq, Repr

section Engines

variable {G : Type} [AddCommGroup G]

/-- The block loop of the `PointGFp_Base_Point_Precompute` constructor
(lines 55-72): for each of the `T_bits` windows it stores
`[g, 2g, 2g+g, 4g, 4g+g, 4g+2g, 4g+(2g+g)]` and continues with `g := 2·4g`.
(`force_all_affine` and `encode_words` only change the stored
representation.) -/
def baseTableBlocks : G → Nat → List G
  | _, 0 => []
  | g, t + 1 =>
    g :: (g + g) :: ((g + g) + g) :: ((g + g) + (g + g)) ::
    (((g + g) + (g + g)) + g) :: (((g + g) + (g + g)) + (g + g)) ::
    (((g + g) + (g + g)) + ((g + g) + g)) ::
    baseTableBlocks (((g + g) + (g + g)) + ((g + g) + (g + g))) t

/-- The table `m_W` of a fixed-base engine built on `base` with curve-prime
bit length `p_bits` and reducer modulus `mod_order` (constructor lines
41-86). -/
def basePrecomputeTable (base : G) (p_bits mod_order : Nat) : List G :=
  baseTableBlocks base (base_T_bits p_bits mod_order)

/-- The oblivious window lookup of `PointGFp_Base_Point_Precompute::mul`
(lines 138-159): the constant-time masks select the entry for window values
1..7; for `w = 0` every mask is clear, the assembled words are all zero, and
`add_affine` on the all-zero encoding adds the identity (spec §4.1: the
addition handles the identity operand). -/
def baseSelect (T : List G) (window w : Nat) : G :=
  if w = 0 then 0 else T.getD (7 * window + (w - 1)) 0

/-- The window loop of `PointGFp_Base_Point_Precompute::mul` (lines
131-172), most-significant window first; `n` counts the windows still to be
processed.  The seeded `randomize_repr` after the first window changes only
the representation. -/
def baseMulLoop (T : List G) (scalar : Nat) : Nat → G → G
  | 0, R => R
  | n + 1, R =>
    baseMulLoop T scalar n (R + baseSelect T n (get_substring scalar (3 * n) 3))

/-- `PointGFp_Base_Point_Precompute::mul` (lines 88-177): reject negative
scalars, reduce and blind/pad the scalar, then run the window loop from
`R = zero`. -/
def base_point_mul (base : G) (p_bits mod_order : Nat) (k : Int)
    (seeded : Bool) (mask : Nat) (group_order : Nat) : Except BotanErr G :=
  if k < 0 then .error .invalidArgument
  else
    let scalar := blinded_scalar seeded mask k.toNat mod_order group_order
    .ok (baseMulLoop (basePrecomputeTable base p_bits mod_order) scalar
      (base_windows scalar) 0)

/-- The doubling table of the `PointGFp_Var_Point_Precompute` constructor
(lines 186-194): `U[0] = zero`, `U[1] = point`, and for even `i`
`U[i] = double(U[i/2])`, `U[i+1] = U[i] + point`, exactly as the source loop
builds it.  The seeded per-entry `randomize_repr` (lines 197-228) and the
`encode_words` flattening (lines 230-239) change only the stored
representation. -/
def varTable (P : G) : List G :=
  List.foldl
    (fun U i =>
      let d := U.getD (i / 2) 0 + U.getD (i / 2) 0
      U ++ [d, d + P])
    [0, P] [2, 4, 6, 8, 10, 12, 14]

/-- The oblivious lookup of `PointGFp_Var_Point_Precompute::mul` (lines
267-276 and 295-304): masks select the stored Jacobian triple for window
values 1..15; for `w = 0` the assembled triple is all zero and `add` of a
`Z = 0` triple adds the identity. -/
def varSelect (T : List G) (w : Nat) : G :=
  if w = 0 then 0 else T.getD w 0

/-- The `while(windows)` loop of `PointGFp_Var_Point_Precompute::mul`
(lines 289-309): per remaining window, `mult2i(4)` then one lookup-add. -/
def varMulLoop (T : List G) (scalar : Nat) : Nat → G → G
  | 0, R => R
  | n + 1, R =>
    varMulLoop T scalar n
      (2 ^ 4 • R + varSelect T (get_substring scalar (4 * n) 4))

/-- Number of 4-bit windows of the blinded scalar (line 257). -/
def var_windows (scalar : Nat) : Nat := round_up (bits scalar) 4 / 4

/-- `PointGFp_Var_Point_Precompute::mul` (lines 242-314): reject negative
scalars, always blind with `k + group_order * mask`, consume the top window
directly into `R` (which starts as the zero point; the subsequent
`randomize_repr` changes only the representation), then run the window
loop. -/
def var_point_mul (P : G) (k : Int) (mask : Nat) (group_order : Nat) :
    Except BotanErr G :=
  if k < 0 then .error .invalidArgument
  else
    let scalar := k.toNat + group_order * mask
    let w := var_windows scalar
    .ok (if w = 0 then 0
      else varMulLoop (varTable P) scalar (w - 1)
        (varSelect (varTable P) (get_substring scalar (4 * (w - 1)) 4)))

/-- The 15 nonzero combinations `i·x + j·y` (`i, j ∈ {0..3}`) pushed by the
`PointGFp_Multi_Point_Precompute` constructor (lines 326-357), in source
order; `x2 = x.mult2`, `x3 = x2 + x`, similarly for `y`.  The
`no_infinity`/`force_all_affine` bookkeeping (lines 359-371) only switches
between `add_affine` and `add`, which agree on represented points. -/
def multiTable (x y : G) : List G :=
  [x, x + x, (x + x) + x,
   y, y + x, y + (x + x), y + ((x + x) + x),
   y + y, (y + y) + x, (y + y) + (x + x), (y + y) + ((x + x) + x),
   (y + y) + y, ((y + y) + y) + x, ((y + y) + y) + (x + x),
   ((y + y) + y) + ((x + x) + x)]

/-- The `PointGFp_Multi_Point_Precompute` constructor (lines 317-372): if
either input fails the on-curve check the table degrades to the single entry
`x.zero()`; otherwise it holds the 15 combinations. -/
def multiPrecompute (on_curve : G → Bool) (x y : G) : List G :=
  if on_curve x = false || on_curve y = false then [0]
  else multiTable x y

/-- Table lookup of `multi_exp` (lines 395-404): `z12 = 4*z2_b + z1_b`; a
zero combination skips the addition, otherwise `M[z12 - 1]` is added. -/
def multiSelect (M : List G) (z1_b z2_b : Nat) : G :=
  if 4 * z2_b + z1_b = 0 then 0 else M.getD (4 * z2_b + z1_b - 1) 0

/-- The two-bit window loop of `multi_exp` (lines 385-405), most-significant
windows first: double twice (`mult2i(2)`), then add the selected
combination.  `n` counts the windows still to be processed. -/
def multiExpLoop (M : List G) (a b : Nat) : Nat → G → G
  | 0, H => H
  | n + 1, H =>
    multiExpLoop M a b n
      (2 ^ 2 • H +
        multiSelect M (get_substring a (2 * n) 2) (get_substring b (2 * n) 2))

/-- `PointGFp_Multi_Point_Precompute::multi_exp` (lines 374-411): return the
single entry if the table is degraded; otherwise walk both scalar magnitudes
two bits at a time (the first window needs no prior doubling since `H` is
the identity), and finally negate exactly when the scalars' signs differ. -/
def multi_exp (M : List G) (z1 z2 : Int) : G :=
  if M.length = 1 then M.headD 0
  else
    let a := z1.natAbs
    let b := z2.natAbs
    let windows := round_up (max (bits a) (bits b)) 2 / 2
    let H : G :=
      if windows = 0 then 0
      else multiExpLoop M a b (windows - 1)
        (multiSelect M (get_substring a (2 * (windows - 1)) 2)
          (get_substring b (2 * (windows - 1)) 2))
    if decide (z1 < 0) != decide (z2 < 0) then -H else H

/-- The free function `multi_exponentiate` (lines 24-30). -/
def multi_exponentiate (on_curve : G → Bool) (x y : G) (z1 z2 : Int) : G :=
  multi_exp (multiPrecompute on_curve x y) z1 z2

/-! ### Fixed-base engine: the table entry at window `i`, value `j`, is
`(j * 8^i) • base`, and the window loop therefore reconstructs the scalar in
base 8. -/

theorem baseTableBlocks_getD :
    ∀ (t : Nat) (g : G) (i j : Nat), i < t → 1 ≤ j → j ≤ 7 →
      (baseTableBlocks g t).getD (7 * i + (j - 1)) 0 = (j * 8 ^ i) • g := by
  intro t
  induction t with
  | zero => intro g i j hi _ _; omega
  | succ t ih =>
    intro g i j hi hj1 hj7
    cases i with
    | zero =>
      interval_cases j <;> simp [baseTableBlocks, List.getD] <;> abel
    | succ i =>
      have harith : 7 * (i + 1) + (j - 1)
          = 7 * i + (j - 1) + 1 + 1 + 1 + 1 + 1 + 1 + 1 := by omega
      rw [show baseTableBlocks g (t + 1)
            = g :: (g + g) :: ((g + g) + g) :: ((g + g) + (g + g)) ::
              (((g + g) + (g + g)) + g) :: (((g + g) + (g + g)) + (g + g)) ::
              (((g + g) + (g + g)) + ((g + g) + g)) ::
              baseTableBlocks (((g + g) + (g + g)) + ((g + g) + (g + g))) t
          from rfl,
        harith]
      simp only [List.getD_cons_succ]
      rw [ih _ i j (by omega) hj1 hj7,
        show ((g + g) + (g + g)) + ((g + g) + (g + g)) = (8 : ℕ) • g by abel,
        smul_smul]
      congr 1
      ring

theorem baseSelect_eq (g : G) {t window : Nat} (hwin : window < t) {w : Nat}
    (hw : w < 8) :
    baseSelect (baseTableBlocks g t) window w = (w * 8 ^ window) • g := by
  rw [baseSelect]
  by_cases h0 : w = 0
  · simp [h0]
  · rw [if_neg h0, baseTableBlocks_getD t g window w hwin (by omega) (by omega)]

theorem baseMulLoop_eq (g : G) {t s : Nat} :
    ∀ (n : Nat) (R : G), n ≤ t →
      baseMulLoop (baseTableBlocks g t) s n R = R + (s % 8 ^ n) • g := by
  intro n
  induction n with
  | zero => intro R _; simp [baseMulLoop, Nat.mod_one]
  | succ n ih =>
    intro R h
    have hmod : s % 8 ^ (n + 1) = s / 8 ^ n % 8 * 8 ^ n + s % 8 ^ n := by
      rw [mod_pow_succ (by norm_num : (0 : Nat) < 8) n s]
      ring
    rw [baseMulLoop, ih _ (by omega), get_substring_base3,
      baseSelect_eq g (show n < t by omega) (Nat.mod_lt _ (by norm_num : 0 < 8)),
      hmod, add_smul, ← add_assoc]

/-- The fixed-base `mul` on a nonnegative scalar returns the blinded scalar
times the base point. -/
theorem base_point_mul_ok (base : G) {p_bits go : Nat} (k : Nat)
    (seeded : Bool) (mask : Nat) (hgo : 0 < go) (hb : bits go ≤ p_bits + 1)
    (hm : mask < 2 ^ blinding_size go) :
    base_point_mul base p_bits go (k : Int) seeded mask go
      = .ok ((blinded_scalar seeded mask k go go) • base) := by
  rw [base_point_mul, if_neg (by omega : ¬(k : Int) < 0)]
  simp only [Int.toNat_natCast]
  rw [basePrecomputeTable,
    baseMulLoop_eq base _ 0 (base_windows_le_T_bits seeded k hgo hb hm),
    Nat.mod_eq_of_lt (lt_eight_pow_base_windows _), zero_add]

theorem mod_mod_same (a n : Nat) : a % n % n = a % n :=
  Nat.mod_mod_of_dvd a dvd_rfl

/-- Both blinding branches leave the scalar unchanged modulo the group
order. -/
theorem blinded_scalar_mod (seeded : Bool) (mask k go : Nat) :
    blinded_scalar seeded mask k go go % go = k % go := by
  rw [blinded_scalar, reduce]
  split
  · rw [Nat.add_mul_mod_self_left, mod_mod_same]
  · rw [unseeded_pad]
    split <;> rw [Nat.add_mod_right] <;>
      first
        | rw [Nat.add_mod_right, mod_mod_same]
        | rw [mod_mod_same]

/-- Scalars congruent modulo the order of `P` act identically on `P`. -/
theorem smul_eq_smul_of_mod {P : G} {go : Nat} (hord : go • P = 0)
    {s k : Nat} (h : s % go = k % go) : s • P = k • P := by
  have expand : ∀ m : Nat, m • P = (m % go) • P := by
    intro m
    conv_lhs => rw [← Nat.div_add_mod m go]
    rw [add_smul, mul_comm, mul_smul, hord, smul_zero, zero_add]
  rw [expand s, expand k, h]

/-! ### Variable-point engine -/

/-- Entry `i` of the doubling table is `i • P` (claim C9's table shape, and
the lookup lemma for the variable-point window loop). -/
theorem varTable_getD (P : G) {i : Nat} (hi : i < 16) :
    (varTable P).getD i 0 = i • P := by
  interval_cases i <;> simp [varTable, List.getD] <;> abel

theorem varTable_length (P : G) : (varTable P).length = 16 := rfl

theorem varSelect_eq (P : G) {w : Nat} (hw : w < 16) :
    varSelect (varTable P) w = w • P := by
  rw [varSelect]
  by_cases h0 : w = 0
  · simp [h0]
  · rw [if_neg h0, varTable_getD P hw]

theorem varMulLoop_eq (P : G) {s : Nat} :
    ∀ (n : Nat) (R : G),
      varMulLoop (varTable P) s n R = 16 ^ n • R + (s % 16 ^ n) • P := by
  intro n
  induction n with
  | zero => intro R; simp [varMulLoop, Nat.mod_one]
  | succ n ih =>
    intro R
    rw [varMulLoop, ih, get_substring_base4,
      varSelect_eq P (Nat.mod_lt _ (by norm_num : 0 < 16)),
      smul_add, smul_smul, smul_smul,
      mod_pow_succ (by norm_num : (0 : Nat) < 16) n s,
      add_smul,
      show (16 : Nat) ^ n * 2 ^ 4 = 16 ^ (n + 1) by norm_num [pow_succ]]
    abel

/-- The variable-point `mul` on a nonnegative scalar returns the blinded
scalar times the point; no side condition is needed because the 16-entry
table covers every 4-bit window. -/
theorem var_point_mul_ok (P : G) (k : Nat) (mask go : Nat) :
    var_point_mul P (k : Int) mask go = .ok ((k + go * mask) • P) := by
  rw [var_point_mul, if_neg (by omega : ¬(k : Int) < 0)]
  simp only [Int.toNat_natCast]
  set s := k + go * mask with hs
  by_cases h0 : var_windows s = 0
  · have hb : bits s = 0 := by
      rw [var_windows, round_up_four_div] at h0
      omega
    have hs0 : s = 0 := by
      have h1 := lt_two_pow_bits s
      rw [hb, pow_zero] at h1
      omega
    rw [h0]
    simp [hs0]
  · obtain ⟨m, hm⟩ : ∃ m, var_windows s = m + 1 :=
      ⟨var_windows s - 1, by omega⟩
    have hcover : s < 16 ^ (m + 1) := by
      have h1 : bits s ≤ 4 * (m + 1) := by
        rw [var_windows, round_up_four_div] at hm
        omega
      calc s < 2 ^ bits s := lt_two_pow_bits s
        _ ≤ 2 ^ (4 * (m + 1)) := Nat.pow_le_pow_right (by norm_num) h1
        _ = 16 ^ (m + 1) := by rw [pow_mul]; norm_num
    rw [hm, if_neg (by omega), Nat.add_sub_cancel, get_substring_base4,
      varSelect_eq P (Nat.mod_lt _ (by norm_num : 0 < 16)),
      varMulLoop_eq P m, smul_smul, ← add_smul,
      show 16 ^ m * (s / 16 ^ m % 16) + s % 16 ^ m = s by
        rw [← mod_pow_succ (by norm_num : (0 : Nat) < 16) m s,
          Nat.mod_eq_of_lt hcover]]

/-! ### Multi-scalar engine -/

theorem multiTable_length (x y : G) : (multiTable x y).length = 15 := rfl

/-- Entry `4*j + i - 1` of the combination table is `j • y + i • x`. -/
theorem multiSelect_eq (x y : G) {i j : Nat} (hi : i < 4) (hj : j < 4) :
    multiSelect (multiTable x y) i j = j • y + i • x := by
  interval_cases i <;> interval_cases j <;>
    simp [multiSelect, multiTable, List.getD] <;> abel

theorem multiExpLoop_eq (x y : G) {a b : Nat} :
    ∀ (n : Nat) (H : G),
      multiExpLoop (multiTable x y) a b n H
        = 4 ^ n • H + ((a % 4 ^ n) • x + (b % 4 ^ n) • y) := by
  intro n
  induction n with
  | zero => intro H; simp [multiExpLoop, Nat.mod_one]
  | succ n ih =>
    intro H
    rw [multiExpLoop, ih, get_substring_base2, get_substring_base2,
      multiSelect_eq x y (Nat.mod_lt _ (by norm_num : 0 < 4))
        (Nat.mod_lt _ (by norm_num : 0 < 4)),
      smul_add, smul_add, smul_smul, smul_smul, smul_smul,
      mod_pow_succ (by norm_num : (0 : Nat) < 4) n a,
      mod_pow_succ (by norm_num : (0 : Nat) < 4) n b,
      add_smul, add_smul,
      show (4 : Nat) ^ n * 2 ^ 2 = 4 ^ (n + 1) by norm_num [pow_succ]]
    abel

/-- Value of `multi_exp` on a non-degraded table: the magnitude combination
`|z1| • x + |z2| • y`, negated exactly when the signs differ. -/
theorem multi_exp_table_eq (x y : G) (z1 z2 : Int) :
    multi_exp (multiTable x y) z1 z2
      = if decide (z1 < 0) != decide (z2 < 0)
        then -(z1.natAbs • x + z2.natAbs • y)
        else z1.natAbs • x + z2.natAbs • y := by
  simp only [multi_exp]
  rw [if_neg (by norm_num [multiTable_length] :
      ¬(multiTable x y).length = 1)]
  set a := z1.natAbs with ha
  set b := z2.natAbs with hb
  set W := round_up (max (bits a) (bits b)) 2 / 2 with hWdef
  have hW2 : W = (max (bits a) (bits b) + 1) / 2 := by
    rw [hWdef, round_up_two_div]
  have hH : (if W = 0 then (0 : G)
      else multiExpLoop (multiTable x y) a b (W - 1)
        (multiSelect (multiTable x y) (get_substring a (2 * (W - 1)) 2)
          (get_substring b (2 * (W - 1)) 2)))
      = a • x + b • y := by
    by_cases h0 : W = 0
    · have hab : bits a = 0 ∧ bits b = 0 := by
        rw [hW2] at h0
        omega
      have ha0 : a = 0 := by
        have := lt_two_pow_bits a
        rw [hab.1, pow_zero] at this
        omega
      have hb0 : b = 0 := by
        have := lt_two_pow_bits b
        rw [hab.2, pow_zero] at this
        omega
      simp [h0, ha0, hb0]
    · obtain ⟨m, hm⟩ : ∃ m, W = m + 1 := ⟨W - 1, by omega⟩
      have hmax : max (bits a) (bits b) ≤ 2 * (m + 1) := by
        rw [hW2] at hm
        omega
      have hca : a < 4 ^ (m + 1) := by
        calc a < 2 ^ bits a := lt_two_pow_bits a
          _ ≤ 2 ^ (2 * (m + 1)) := Nat.pow_le_pow_right (by norm_num) (by omega)
          _ = 4 ^ (m + 1) := by rw [pow_mul]; norm_num
      have hcb : b < 4 ^ (m + 1) := by
        calc b < 2 ^ bits b := lt_two_pow_bits b
          _ ≤ 2 ^ (2 * (m + 1)) := Nat.pow_le_pow_right (by norm_num) (by omega)
          _ = 4 ^ (m + 1) := by rw [pow_mul]; norm_num
      have ha' : a = 4 ^ m * (a / 4 ^ m % 4) + a % 4 ^ m := by
        rw [← mod_pow_succ (by norm_num : (0 : Nat) < 4) m a,
          Nat.mod_eq_of_lt hca]
      have hb' : b = 4 ^ m * (b / 4 ^ m % 4) + b % 4 ^ m := by
        rw [← mod_pow_succ (by norm_num : (0 : Nat) < 4) m b,
          Nat.mod_eq_of_lt hcb]
      rw [hm, if_neg (by omega), Nat.add_sub_cancel]
      conv_rhs => rw [ha', hb']
      rw [get_substring_base2, get_substring_base2,
        multiSelect_eq x y (Nat.mod_lt _ (by norm_num : 0 < 4))
          (Nat.mod_lt _ (by norm_num : 0 < 4)),
        multiExpLoop_eq x y m,
        smul_add, smul_smul, smul_smul, add_smul, add_smul]
      abel
  rw [hH]

end Engines

/-! ## Coordinate-level model

`point_gfp.h` (among the sources) defines the point record, `negate`,
`is_zero` and the curve-equality guard of `add`.  The curve descriptor's
`operator==` lives in `curve_gfp.h` (not among the sources); per the spec,
"equality between two descriptors is by value of `p`/`a`/`b`", which in this
embedding is structural equality of the three parameters. -/

/-- Curve descriptor: prime modulus and coefficients (`y² = x³ + ax + b`). -/
structure CurveGFp where
  p : Nat
  a : Nat
  b : Nat
  deriving DecidableEq, Repr

/-- `PointGFp`: Jacobian coordinates over the referenced curve. -/
structure PointGFp where
  curve : CurveGFp
  x : Nat
  y : Nat
  z : Nat
  deriving DecidableEq, Repr

/-- `PointGFp::is_zero()`: the point at infinity has `Z = 0`. -/
def PointGFp.is_zero (P : PointGFp) : Bool := P.z == 0

/-- `PointGFp::negate()` (point_gfp.h lines 122-127): `Y ← p − Y` unless the
point is the identity. -/
def PointGFp.negate (P : PointGFp) : PointGFp :=
  if P.is_zero then P else { P with y := P.curve.p - P.y }

/-- Modular subtraction `(a - b) mod p` on canonical representatives. -/
def fsub (p a b : Nat) : Nat := (a % p + (p - b % p)) % p

/-- Modelled from the spec (§4.1, `point_gfp.cpp` is not among the sources):
Jacobian point doubling. -/
def jacDouble (P : PointGFp) : PointGFp :=
  let p := P.curve.p
  if P.z = 0 then P
  else
    let S := 4 * P.x * P.y ^ 2 % p
    let M := (3 * P.x ^ 2 + P.curve.a * P.z ^ 4) % p
    let x' := fsub p (M ^ 2) (2 * S)
    let y' := fsub p (M * fsub p S x') (8 * P.y ^ 4 % p)
    let z' := 2 * P.y * P.z % p
    { P with x := x', y := y', z := z' }

/-- Modelled from the spec (§4.1, `point_gfp.cpp` is not among the sources):
Jacobian point addition — identity on either side returns the other operand,
equal operands double, inverse operands give the identity, else the standard
chord formula mod `p`. -/
def jacAdd (P Q : PointGFp) : PointGFp :=
  let p := P.curve.p
  if Q.z = 0 then P
  else if P.z = 0 then { P with x := Q.x, y := Q.y, z := Q.z }
  else
    let U1 := P.x * Q.z ^ 2 % p
    let U2 := Q.x * P.z ^ 2 % p
    let S1 := P.y * Q.z ^ 3 % p
    let S2 := Q.y * P.z ^ 3 % p
    if U1 = U2 then
      if S1 = S2 then jacDouble P else { P with x := 1, y := 1, z := 0 }
    else
      let H := fsub p U2 U1
      let r := fsub p S2 S1
      let x' := fsub p (r ^ 2) (H ^ 3 + 2 * U1 * H ^ 2)
      let y' := fsub p (r * fsub p (U1 * H ^ 2) x') (S1 * H ^ 3)
      let z' := P.z * Q.z * H % p
      { P with x := x', y := y', z := z' }

/-- `PointGFp::add(other, pool)` (point_gfp.h lines 197-207):
`BOTAN_ARG_CHECK(m_curve == other.m_curve)` raises `Invalid_Argument` before
any arithmetic; on success the sum is computed in place.  In this functional
embedding the error result carries no point: the mutation never happened, so
the left-hand operand is unchanged. -/
def PointGFp.add (P other : PointGFp) : Except BotanErr PointGFp :=
  if P.curve = other.curve then .ok (jacAdd P other)
  else .error .invalidArgument

/-! ### Jacobian representation over `ZMod p` (for representation
randomization) -/

/-- A raw Jacobian coordinate triple over the field `ZMod p`. -/
structure JacRepr (p : Nat) where
  X : ZMod p
  Y : ZMod p
  Z : ZMod p
  deriving DecidableEq

/-- The affine point represented by a Jacobian triple: `(X/Z², Y/Z³)` when
`Z ≠ 0`, and `none` (the point at infinity) when `Z = 0`. -/
def jacAffine (p : Nat) [Fact p.Prime] (P : JacRepr p) :
    Option (ZMod p × ZMod p) :=
  if P.Z = 0 then none else some (P.X / P.Z ^ 2, P.Y / P.Z ^ 3)

/-- `randomize_repr` / the per-entry randomization of the variable-point
constructor (point_mul.cpp lines 213-227): `(X, Y, Z) ← (r²X, r³Y, rZ)`. -/
def randomize_repr (p : Nat) (r : ZMod p) (P : JacRepr p) : JacRepr p :=
  ⟨r ^ 2 * P.X, r ^ 3 * P.Y, r * P.Z⟩

/-- Representation randomization by nonzero `r` preserves the represented
affine point. -/
theorem jacAffine_randomize_repr {p : Nat} [Fact p.Prime] {r : ZMod p}
    (hr : r ≠ 0) (P : JacRepr p) :
    jacAffine p (randomize_repr p r P) = jacAffine p P := by
  rw [jacAffine, jacAffine, randomize_repr]
  by_cases hZ : P.Z = 0
  · simp [hZ]
  · rw [if_neg (by simp [mul_eq_zero, hr, hZ]), if_neg hZ]
    congr 1
    have h2 : (r * P.Z) ^ 2 = r ^ 2 * P.Z ^ 2 := by ring
    have h3 : (r * P.Z) ^ 3 = r ^ 3 * P.Z ^ 3 := by ring
    rw [Prod.mk.injEq]
    constructor
    · rw [h2, mul_div_mul_left _ _ (pow_ne_zero 2 hr)]
    · rw [h3, mul_div_mul_left _ _ (pow_ne_zero 3 hr)]

/-! ## Claims -/

/-- C1: for every point `P` (of order dividing `group_order`, the setting of
the claim's `mul(group_order, P) = identity` particular) and every integer
`k ≥ 0`, the fixed-base and variable-base `mul` agree with each other and
with `k`-fold repeated addition of `P` (`k • P`), for every RNG state: every
seeded flag and every pair of blinding masks.  The particulars `mul(0,P) =
identity`, `mul(1,P) = P`, `mul(group_order,P) = identity` are the instances
`k = 0, 1, group_order`. -/
theorem C1_mul_refinement {G : Type} [AddCommGroup G] (P : G)
    (k go p_bits maskB maskV : Nat) (seeded : Bool)
    (hgo : 0 < go) (hord : go • P = 0) (hb : bits go ≤ p_bits + 1)
    (hmB : maskB < 2 ^ blinding_size go) :
    base_point_mul P p_bits go (k : Int) seeded maskB go = .ok (k • P)
    ∧ var_point_mul P (k : Int) maskV go = .ok (k • P) := by
  constructor
  · rw [base_point_mul_ok P k seeded maskB hgo hb hmB]
    exact congrArg Except.ok
      (smul_eq_smul_of_mod hord (blinded_scalar_mod seeded maskB k go))
  · rw [var_point_mul_ok P k maskV go]
    exact congrArg Except.ok
      (smul_eq_smul_of_mod hord (Nat.add_mul_mod_self_left k go maskV))

theorem C1_witness :
    base_point_mul (1 : ZMod 5) 3 5 (3 : Int) true 2 5
        = .ok ((3 : Nat) • (1 : ZMod 5))
    ∧ var_point_mul (1 : ZMod 5) (3 : Int) 7 5
        = .ok ((3 : Nat) • (1 : ZMod 5)) :=
  C1_mul_refinement (1 : ZMod 5) 3 5 3 2 7 true (by decide) (by decide)
    (by decide) (by decide)

/-- C2 (counterexample): `multi_exp(z1, z2)` is *not* `z1 • x + z2 • y` for
all integer scalars: with `x = y = 1` in `ZMod 5` and `z1 = z2 = -1` the
equal signs suppress the final negation, so the code returns `x + y` while
`z1 • x + z2 • y = -(x + y)`. -/
theorem C2_counterexample :
    multi_exponentiate (fun _ => true) (1 : ZMod 5) (1 : ZMod 5) (-1) (-1)
      ≠ (-1 : Int) • (1 : ZMod 5) + (-1 : Int) • (1 : ZMod 5) := by
  decide

/-- C2 (amended): on a non-degraded table, `multi_exp(z1, z2)` equals
`|z1| • x + |z2| • y`, negated exactly when the two scalars' signs differ;
in particular it equals `z1 • x + z2 • y` whenever both scalars are
nonnegative (but not for general negative scalars). -/
theorem C2_multi_exp_amended {G : Type} [AddCommGroup G] (on_curve : G → Bool)
    (x y : G) (hx : on_curve x = true) (hy : on_curve y = true) (z1 z2 : Int) :
    multi_exponentiate on_curve x y z1 z2
      = (if decide (z1 < 0) != decide (z2 < 0)
         then -(z1.natAbs • x + z2.natAbs • y)
         else z1.natAbs • x + z2.natAbs • y)
    ∧ (0 ≤ z1 → 0 ≤ z2 →
        multi_exponentiate on_curve x y z1 z2 = z1 • x + z2 • y) := by
  have hpre : multiPrecompute on_curve x y = multiTable x y := by
    simp [multiPrecompute, hx, hy]
  constructor
  · rw [multi_exponentiate, hpre, multi_exp_table_eq]
  · intro h1 h2
    rw [multi_exponentiate, hpre, multi_exp_table_eq,
      decide_eq_false (by omega : ¬z1 < 0),
      decide_eq_false (by omega : ¬z2 < 0)]
    rw [if_neg (by simp)]
    conv_rhs => rw [← Int.natAbs_of_nonneg h1, ← Int.natAbs_of_nonneg h2]
    rw [natCast_zsmul, natCast_zsmul]

theorem C2_witness :
    multi_exponentiate (fun _ => true) (1 : ZMod 7) (2 : ZMod 7) 2 3
      = (2 : Int) • (1 : ZMod 7) + (3 : Int) • (2 : ZMod 7) :=
  (C2_multi_exp_amended (fun _ => true) 1 2 rfl rfl 2 3).2 (by decide)
    (by decide)

/-- C3: when the RNG is seeded, the fixed-base `mul` feeds the window loop
the scalar `(k mod group_order) + mask * group_order`, where `k` is first
reduced by the externally supplied reducer and the mask has bit length
exactly `(group_order.bits() + 1) / 2`. -/
theorem C3_seeded_scalar_blinding {G : Type} [AddCommGroup G] (base : G)
    (p_bits k go r : Nat) (hgo : 0 < go) :
    base_point_mul base p_bits go (k : Int) true
        (rng_mask (blinding_size go) r) go
      = .ok (baseMulLoop (basePrecomputeTable base p_bits go)
          (k % go + rng_mask (blinding_size go) r * go)
          (base_windows (k % go + rng_mask (blinding_size go) r * go)) 0)
    ∧ bits (rng_mask (blinding_size go) r) = blinding_size go := by
  have hscal : blinded_scalar true (rng_mask (blinding_size go) r) k go go
      = k % go + rng_mask (blinding_size go) r * go := by
    rw [blinded_scalar, if_pos rfl, reduce]
    ring
  constructor
  · rw [base_point_mul, if_neg (by omega : ¬(k : Int) < 0)]
    simp only [Int.toNat_natCast]
    rw [hscal]
  · exact bits_rng_mask (blinding_size_pos hgo) r

theorem C3_witness :
    base_point_mul (1 : ZMod 5) 3 5 (3 : Int) true
        (rng_mask (blinding_size 5) 6) 5
      = .ok (baseMulLoop (basePrecomputeTable (1 : ZMod 5) 3 5)
          (3 % 5 + rng_mask (blinding_size 5) 6 * 5)
          (base_windows (3 % 5 + rng_mask (blinding_size 5) 6 * 5)) 0)
    ∧ bits (rng_mask (blinding_size 5) 6) = blinding_size 5 :=
  C3_seeded_scalar_blinding (1 : ZMod 5) 3 3 5 6 (by decide)

/-- C4: when the RNG is not seeded, the processed scalar is the reduced
scalar plus one or two copies of the group order, and its bit length is
exactly `group_order.bits() + 1` for every `k ≥ 0` and `group_order > 0`. -/
theorem C4_unseeded_scalar_padding (k go mask : Nat) (hgo : 0 < go) :
    (blinded_scalar false mask k go go = k % go + go
      ∨ blinded_scalar false mask k go go = k % go + go + go)
    ∧ bits (blinded_scalar false mask k go go) = bits go + 1 := by
  have hred : k % go < go := Nat.mod_lt _ hgo
  have hval : blinded_scalar false mask k go go = unseeded_pad (k % go) go := by
    rw [blinded_scalar, if_neg (by simp), reduce]
  constructor
  · rw [hval, unseeded_pad]
    split
    · right; rfl
    · left; rfl
  · rw [hval]
    exact bits_unseeded_pad hgo hred

theorem C4_witness :
    (blinded_scalar false 0 3 5 5 = 3 % 5 + 5
      ∨ blinded_scalar false 0 3 5 5 = 3 % 5 + 5 + 5)
    ∧ bits (blinded_scalar false 0 3 5 5) = bits 5 + 1 :=
  C4_unseeded_scalar_padding 3 5 0 (by decide)

/-- C5: under the seeded blinding bound (`mask` of at most `blinding_size`
bits) and the unseeded padding, the window count never exceeds the `T_bits`
windows the constructor precomputed, and every word read
`m_W[7·window·elem + c·elem + j]` of the window loop stays below the table
length `m_W.size() = 7 · T_bits · 2 · p_words`. -/
theorem C5_table_access_bounds (k go p_bits p_words mask win c j : Nat)
    (seeded : Bool) (hgo : 0 < go) (hb : bits go ≤ p_bits + 1)
    (hm : mask < 2 ^ blinding_size go)
    (hwin : win < base_windows (blinded_scalar seeded mask k go go))
    (hc : c < 7) (hj : j < 2 * p_words) :
    base_windows (blinded_scalar seeded mask k go go) ≤ base_T_bits p_bits go
    ∧ 7 * win * (2 * p_words) + c * (2 * p_words) + j
        < base_W_len p_bits go p_words := by
  have hW := base_windows_le_T_bits seeded k hgo hb hm
  refine ⟨hW, ?_⟩
  rw [base_W_len]
  have hc' : c * (2 * p_words) ≤ 6 * (2 * p_words) :=
    Nat.mul_le_mul (by omega) le_rfl
  have hT' : 7 * (win + 1) * (2 * p_words)
      ≤ 7 * base_T_bits p_bits go * (2 * p_words) :=
    Nat.mul_le_mul (by omega) le_rfl
  have hexp : 7 * (win + 1) * (2 * p_words)
      = 7 * win * (2 * p_words) + 14 * p_words := by ring
  have h6 : 6 * (2 * p_words) = 12 * p_words := by ring
  linarith

theorem C5_witness :
    base_windows (blinded_scalar true 2 3 5 5) ≤ base_T_bits 3 5
    ∧ 7 * 0 * (2 * 1) + 0 * (2 * 1) + 0 < base_W_len 3 5 1 :=
  C5_table_access_bounds 3 5 3 1 2 0 0 0 true (by decide) (by decide)
    (by decide) (by decide) (by decide) (by decide)

/-- C6: if either input point fails the on-curve check, the multi-scalar
table degrades to the single identity entry and every subsequent
`multi_exp`, for all scalar pairs, returns the identity. -/
theorem C6_fail_closed {G : Type} [AddCommGroup G] (on_curve : G → Bool)
    (x y : G) (h : on_curve x = false ∨ on_curve y = false) (z1 z2 : Int) :
    multiPrecompute on_curve x y = [0]
    ∧ multi_exp (multiPrecompute on_curve x y) z1 z2 = 0 := by
  have hdeg : multiPrecompute on_curve x y = [0] := by
    rcases h with h | h <;> simp [multiPrecompute, h]
  refine ⟨hdeg, ?_⟩
  rw [hdeg]
  simp [multi_exp]

theorem C6_witness :
    multiPrecompute (fun _ => false) (1 : ZMod 5) (2 : ZMod 5) = [0]
    ∧ multi_exp (multiPrecompute (fun _ => false) (1 : ZMod 5) (2 : ZMod 5))
        4 (-2) = 0 :=
  C6_fail_closed (fun _ => false) 1 2 (Or.inl rfl) 4 (-2)

/-- C7: every negative scalar makes both `mul` entry points fail with
`Invalid_Argument` before any arithmetic; no point is returned. -/
theorem C7_negative_scalar_rejected {G : Type} [AddCommGroup G]
    (base P : G) (p_bits mod_order group_order : Nat) (seeded : Bool)
    (maskB maskV : Nat) (k : Int) (hk : k < 0) :
    base_point_mul base p_bits mod_order k seeded maskB group_order
        = .error .invalidArgument
    ∧ var_point_mul P k maskV group_order = .error .invalidArgument := by
  constructor
  · rw [base_point_mul, if_pos hk]
  · rw [var_point_mul, if_pos hk]

theorem C7_witness :
    base_point_mul (1 : ZMod 5) 3 5 (-3 : Int) true 2 5
        = .error .invalidArgument
    ∧ var_point_mul (2 : ZMod 5) (-3 : Int) 7 5 = .error .invalidArgument :=
  C7_negative_scalar_rejected (1 : ZMod 5) 2 3 5 5 true 2 7 (-3) (by decide)

/-- C8: `PointGFp::add` fails with `Invalid_Argument` exactly when the two
curve descriptors differ in one of the parameter values `p`/`a`/`b`
(equality is by value, not identity), leaving the left operand unchanged;
when all three values agree the addition proceeds. -/
theorem C8_add_requires_same_curve (P Q : PointGFp) :
    ((P.curve.p = Q.curve.p ∧ P.curve.a = Q.curve.a ∧ P.curve.b = Q.curve.b) →
        P.add Q = .ok (jacAdd P Q))
    ∧ (¬(P.curve.p = Q.curve.p ∧ P.curve.a = Q.curve.a ∧ P.curve.b = Q.curve.b) →
        P.add Q = .error .invalidArgument) := by
  obtain ⟨⟨p1, a1, b1⟩, x1, y1, z1⟩ := P
  obtain ⟨⟨p2, a2, b2⟩, x2, y2, z2⟩ := Q
  simp only [PointGFp.add]
  constructor
  · rintro ⟨h1, h2, h3⟩
    subst h1; subst h2; subst h3
    rw [if_pos rfl]
  · intro h
    have hne : ¬(CurveGFp.mk p1 a1 b1 = CurveGFp.mk p2 a2 b2) := by
      intro heq
      injection heq with h1 h2 h3
      exact h ⟨h1, h2, h3⟩
    rw [if_neg hne]

theorem C8_witness :
    PointGFp.add ⟨⟨5, 1, 1⟩, 1, 1, 1⟩ ⟨⟨7, 1, 1⟩, 1, 1, 1⟩
      = .error .invalidArgument :=
  (C8_add_requires_same_curve ⟨⟨5, 1, 1⟩, 1, 1, 1⟩ ⟨⟨7, 1, 1⟩, 1, 1, 1⟩).2
    (by decide)

/-- C9: the variable-point constructor's table entry `i` represents `i • P`
for every `i < 16` (entry 0 the identity), and the per-entry representation
randomization `(X,Y,Z) ← (r²X, r³Y, rZ)` with nonzero `r` does not change
the affine point an entry represents — so the table shape holds whether or
not the RNG is seeded. -/
theorem C9_var_table_and_randomization {G : Type} [AddCommGroup G] (P : G)
    (i : Nat) (hi : i < 16) (p : Nat) [Fact p.Prime] (r : ZMod p)
    (hr : r ≠ 0) (T : JacRepr p) :
    (varTable P).getD i 0 = i • P
    ∧ jacAffine p (randomize_repr p r T) = jacAffine p T :=
  ⟨varTable_getD P hi, jacAffine_randomize_repr hr T⟩

instance fact_prime_7 : Fact (Nat.Prime 7) := ⟨by norm_num⟩

theorem C9_witness :
    (varTable (1 : ZMod 5)).getD 3 0 = 3 • (1 : ZMod 5)
    ∧ jacAffine 7 (randomize_repr 7 3 ⟨1, 2, 3⟩) = jacAffine 7 ⟨1, 2, 3⟩ :=
  C9_var_table_and_randomization (1 : ZMod 5) 3 (by decide) 7 3 (by decide)
    ⟨1, 2, 3⟩

/-- C10: `negate` maps `Y` to `p − Y` on non-identity points and leaves the
identity entirely unchanged; `X`, `Z` and the curve are never touched, and
negating twice restores the original point (hence the same represented
affine point). -/
theorem C10_negate (P : PointGFp) (hy : P.y ≤ P.curve.p) :
    (P.is_zero = true → P.negate = P)
    ∧ (P.is_zero = false → P.negate = { P with y := P.curve.p - P.y })
    ∧ P.negate.x = P.x
    ∧ P.negate.z = P.z
    ∧ P.negate.curve = P.curve
    ∧ P.negate.negate = P := by
  by_cases hz : P.z = 0
  · have hiz : P.is_zero = true := by simp [PointGFp.is_zero, hz]
    have hneg : P.negate = P := by rw [PointGFp.negate, if_pos hiz]
    exact ⟨fun _ => hneg, fun h => absurd hiz (by simp [h]),
      by rw [hneg], by rw [hneg], by rw [hneg], by rw [hneg, hneg]⟩
  · have hiz : P.is_zero = false := by simp [PointGFp.is_zero, hz]
    have hneg : P.negate = { P with y := P.curve.p - P.y } := by
      rw [PointGFp.negate, if_neg (by simp [hiz])]
    refine ⟨fun h => absurd h (by simp [hiz]), fun _ => hneg,
      by rw [hneg], by rw [hneg], by rw [hneg], ?_⟩
    rw [hneg, PointGFp.negate,
      if_neg (by simp [PointGFp.is_zero, hz])]
    show ({ P with y := P.curve.p - (P.curve.p - P.y) } : PointGFp) = P
    have hyy : P.curve.p - (P.curve.p - P.y) = P.y := by omega
    rw [hyy]

theorem C10_witness :
    (PointGFp.negate (PointGFp.negate ⟨⟨7, 0, 1⟩, 2, 3, 1⟩))
      = ⟨⟨7, 0, 1⟩, 2, 3, 1⟩ :=
  (C10_negate ⟨⟨7, 0, 1⟩, 2, 3, 1⟩ (by decide)).2.2.2.2.2

end PointMul
